import Mathlib

/-!
Verification of the link-prediction benchmark harness
(`link_prediction_scores.py`).

The development embeds, in order:
* the logistic `sigmoid` and the `get_roc_score` evaluation harness
  (source lines 19-51);
* the sklearn metric functions `roc_auc_score` and
  `average_precision_score`, modelled from the spec (section 4.3), since
  sklearn is an external collaborator of the repository; they are stated
  over an arbitrary linear ordered field so that concrete witnesses can be
  evaluated over the rationals;
* the heuristic score-matrix construction shared by the Adamic-Adar,
  Jaccard and preferential-attachment scorers (source lines 62-66, 83-87,
  104-108), with the networkx index generator abstracted as a list of
  `(u, v, p)` triples;
* the scores dictionary assembled by `calculate_all_scores`
  (source lines 373-485) with the numeric metric values abstracted;
* the GAE per-epoch validation-ROC trajectory loop (source lines 311-338);
* the train/val/test edge-split engine `mask_test_edges`, modelled from
  the spec (section 4.1) because its implementation lives in the vendored
  `gae.preprocessing` module, outside the given source file.
-/

/-- The logistic sigmoid from source lines 19-20: `1 / (1 + np.exp(-x))`. -/
noncomputable def sigmoid (x : ℝ) : ℝ := 1 / (1 + Real.exp (-x))

/-- Scores of the entries of a labelled prediction vector that carry the
given label: the labels and predictions are zipped positionally, filtered
by label, and projected to the score. -/
def scoresWithLabel {F : Type} (lab : ℕ) (labels : List ℕ) (preds : List F) :
    List F :=
  ((labels.zip preds).filter (fun q => q.1 == lab)).map Prod.snd

/-- Modelled from the spec: the per-pair credit of the rank-based ROC-AUC
computation of sklearn's `roc_auc_score` (an external collaborator):
a positive score strictly above a negative score earns full credit, a tie
earns half credit (spec section 4.3). -/
def pairCredit {F : Type} [LinearOrderedField F] (s t : F) : F :=
  if t < s then 1 else if s = t then 1 / 2 else 0

/-- Modelled from the spec: sklearn's `roc_auc_score` on a 0/1 label vector
and a prediction vector — the probability that a uniformly random
positive-labelled score exceeds a uniformly random negative-labelled score,
ties counted as half credit (spec section 4.3). -/
def roc_auc_score {F : Type} [LinearOrderedField F]
    (labels : List ℕ) (preds : List F) : F :=
  let ps := scoresWithLabel 1 labels preds
  let ns := scoresWithLabel 0 labels preds
  ((ps.map (fun s => (ns.map (fun t => pairCredit s t)).sum)).sum) /
    ((ps.length : F) * (ns.length : F))

/-- Recall-increment times precision contributed by one score threshold `t`
in the step-function average-precision sum: (number of positives scoring
exactly `t`) · (positives scoring at least `t`) / (entries scoring at least
`t`). -/
def apSummand {F : Type} [LinearOrderedField F] (pairs : List (ℕ × F))
    (t : F) : F :=
  ((pairs.countP (fun q => q.1 == 1 && q.2 == t) : F) *
      (pairs.countP (fun q => q.1 == 1 && decide (t ≤ q.2)) : F)) /
    (pairs.countP (fun q => decide (t ≤ q.2)) : F)

/-- Modelled from the spec: sklearn's `average_precision_score` (an external
collaborator) — the area under the precision-recall curve using the standard
step-function definition over the distinct score thresholds, written as the
sum over distinct scores of recall-increment times precision, divided by the
number of positives (spec section 4.3). -/
def average_precision_score {F : Type} [LinearOrderedField F]
    (labels : List ℕ) (preds : List F) : F :=
  (∑ t ∈ preds.toFinset, apSummand (labels.zip preds) t) /
    ((scoresWithLabel 1 labels preds).length : F)

/-- Per-edge prediction extraction of `get_roc_score` (source lines 26-44):
each edge's score is looked up in the score matrix at the edge's
coordinates, and passed through the sigmoid exactly when `apply_sigmoid`
is set. -/
noncomputable def edge_preds (edges : List (ℕ × ℕ))
    (score_matrix : ℕ → ℕ → ℝ) (apply_sigmoid : Bool) : List ℝ :=
  edges.map (fun edge =>
    if apply_sigmoid = true then sigmoid (score_matrix edge.1 edge.2)
    else score_matrix edge.1 edge.2)

/-- The combined prediction vector `preds_all` of `get_roc_score`
(source line 47): positive-edge predictions followed by negative-edge
predictions. -/
noncomputable def preds_all (edges_pos edges_neg : List (ℕ × ℕ))
    (score_matrix : ℕ → ℕ → ℝ) (apply_sigmoid : Bool) : List ℝ :=
  edge_preds edges_pos score_matrix apply_sigmoid ++
    edge_preds edges_neg score_matrix apply_sigmoid

/-- The combined label vector `labels_all` of `get_roc_score`
(source line 48): a one for every positive edge followed by a zero for
every negative edge. -/
def labels_all (edges_pos edges_neg : List (ℕ × ℕ)) : List ℕ :=
  List.replicate edges_pos.length 1 ++ List.replicate edges_neg.length 0

/-- The evaluation harness `get_roc_score` (source lines 24-51): builds the
combined label and prediction vectors and returns the ROC-AUC and
average-precision pair. -/
noncomputable def get_roc_score (edges_pos edges_neg : List (ℕ × ℕ))
    (score_matrix : ℕ → ℕ → ℝ) (apply_sigmoid : Bool) : ℝ × ℝ :=
  (roc_auc_score (labels_all edges_pos edges_neg)
      (preds_all edges_pos edges_neg score_matrix apply_sigmoid),
    average_precision_score (labels_all edges_pos edges_neg)
      (preds_all edges_pos edges_neg score_matrix apply_sigmoid))

/-- C4: in `get_roc_score`, the i-th entry of the combined prediction
vector is the score-matrix entry at the i-th edge's coordinates (through
the logistic sigmoid exactly when `apply_sigmoid` is set), positive edges
first and negative edges after them, and the combined label vector is 1 at
every positive-edge position followed by 0 at every negative-edge
position. -/
theorem get_roc_score_vectors (edges_pos edges_neg : List (ℕ × ℕ))
    (m : ℕ → ℕ → ℝ) (s : Bool) :
    (∀ i (hi : i < edges_pos.length),
      (preds_all edges_pos edges_neg m s)[i]? =
        some (if s = true then
                sigmoid (m (edges_pos.get ⟨i, hi⟩).1 (edges_pos.get ⟨i, hi⟩).2)
              else m (edges_pos.get ⟨i, hi⟩).1 (edges_pos.get ⟨i, hi⟩).2) ∧
      (labels_all edges_pos edges_neg)[i]? = some 1) ∧
    (∀ j (hj : j < edges_neg.length),
      (preds_all edges_pos edges_neg m s)[edges_pos.length + j]? =
        some (if s = true then
                sigmoid (m (edges_neg.get ⟨j, hj⟩).1 (edges_neg.get ⟨j, hj⟩).2)
              else m (edges_neg.get ⟨j, hj⟩).1 (edges_neg.get ⟨j, hj⟩).2) ∧
      (labels_all edges_pos edges_neg)[edges_pos.length + j]? = some 0) := by
  constructor
  · intro i hi
    constructor
    · simp [preds_all, List.getElem?_append, edge_preds, hi,
        List.getElem?_eq_getElem hi]
    · simp [labels_all, List.getElem?_append, List.getElem?_replicate, hi]
  · intro j hj
    constructor
    · simp [preds_all, List.getElem?_append, edge_preds,
        List.getElem?_eq_getElem hj]
    · simp [labels_all, List.getElem?_append, List.getElem?_replicate, hj,
        List.getElem_append_right, List.getElem_replicate]

/-- Witness for the `get_roc_score` vector-construction theorem at a
concrete input: positive edge (0,1) and negative edge (1,2) with the score
matrix `i + j`, without sigmoid. -/
theorem get_roc_score_vectors_witness :
    (preds_all [(0, 1)] [(1, 2)] (fun i j => (i : ℝ) + j) false)[0]? =
        some 1 ∧
    (labels_all [(0, 1)] [(1, 2)])[0]? = some 1 ∧
    (preds_all [(0, 1)] [(1, 2)] (fun i j => (i : ℝ) + j) false)[1]? =
        some 3 ∧
    (labels_all [(0, 1)] [(1, 2)])[1]? = some 0 := by
  have h := get_roc_score_vectors [(0, 1)] [(1, 2)] (fun i j => (i : ℝ) + j)
    false
  have h1 := h.1 0 (by decide)
  have h2 := h.2 0 (by decide)
  norm_num at h1 h2
  exact ⟨h1.1, h1.2, h2.1, h2.2⟩

/-- The logistic sigmoid is strictly monotone. -/
theorem sigmoid_strictMono : StrictMono sigmoid := by
  intro x y hxy
  have hx : 0 < 1 + Real.exp (-x) := by positivity
  have hy : 0 < 1 + Real.exp (-y) := by positivity
  have hlt : 1 + Real.exp (-y) < 1 + Real.exp (-x) := by
    have h := Real.exp_lt_exp.mpr (neg_lt_neg hxy)
    linarith
  show 1 / (1 + Real.exp (-x)) < 1 / (1 + Real.exp (-y))
  exact (one_div_lt_one_div hx hy).mpr hlt

/-- Mapping a function over the prediction vector maps it over the scores
of each label class. -/
theorem scoresWithLabel_map {F G : Type} (lab : ℕ) (labels : List ℕ)
    (preds : List F) (f : F → G) :
    scoresWithLabel lab labels (preds.map f) =
      (scoresWithLabel lab labels preds).map f := by
  unfold scoresWithLabel
  rw [List.zip_map_right, List.filter_map, List.map_map, List.map_map]
  rfl

/-- The tie-aware pair credit is preserved by any strictly monotone
transform of both scores. -/
theorem pairCredit_strictMono {F : Type} [LinearOrderedField F]
    {f : F → F} (hf : StrictMono f) (s t : F) :
    pairCredit (f s) (f t) = pairCredit s t := by
  unfold pairCredit
  by_cases h1 : t < s
  · rw [if_pos (hf h1), if_pos h1]
  · rw [if_neg (fun hc => h1 (hf.lt_iff_lt.mp hc)), if_neg h1]
    by_cases h2 : s = t
    · rw [if_pos (by rw [h2]), if_pos h2]
    · rw [if_neg (fun hc => h2 (hf.injective hc)), if_neg h2]

/-- The rank-based ROC-AUC is invariant under any strictly monotone
transform of the prediction vector. -/
theorem roc_auc_score_strictMono {F : Type} [LinearOrderedField F]
    {f : F → F} (hf : StrictMono f)
    (labels : List ℕ) (preds : List F) :
    roc_auc_score labels (preds.map f) = roc_auc_score labels preds := by
  simp only [roc_auc_score]
  rw [scoresWithLabel_map, scoresWithLabel_map, List.length_map,
    List.length_map]
  congr 1
  rw [List.map_map]
  apply congrArg List.sum
  apply List.map_congr_left
  intro x hx
  simp only [Function.comp_apply]
  rw [List.map_map]
  apply congrArg List.sum
  apply List.map_congr_left
  intro t ht
  simp only [Function.comp_apply]
  exact pairCredit_strictMono hf x t

/-- The finset of values of a mapped list is the image of the finset of
values of the list. -/
theorem list_toFinset_map {F G : Type} [DecidableEq F] [DecidableEq G]
    (l : List F) (f : F → G) : (l.map f).toFinset = l.toFinset.image f := by
  induction l with
  | nil => simp
  | cons a l ih => simp [ih]

/-- The step-function average precision is invariant under any strictly
monotone transform of the prediction vector. -/
theorem average_precision_score_strictMono {F : Type}
    [LinearOrderedField F] {f : F → F}
    (hf : StrictMono f) (labels : List ℕ) (preds : List F) :
    average_precision_score labels (preds.map f) =
      average_precision_score labels preds := by
  unfold average_precision_score
  rw [scoresWithLabel_map, List.length_map]
  congr 1
  rw [list_toFinset_map]
  rw [Finset.sum_image (fun x _ y _ h => hf.injective h)]
  apply Finset.sum_congr rfl
  intro t ht
  unfold apSummand
  rw [List.zip_map_right, List.countP_map, List.countP_map, List.countP_map]
  have e1 : ((fun q : ℕ × F => q.1 == 1 && q.2 == f t) ∘
      Prod.map (id : ℕ → ℕ) f) = (fun q : ℕ × F => q.1 == 1 && q.2 == t) := by
    funext q
    simp only [Function.comp_apply, Prod.map, id_eq]
    by_cases h : q.2 = t
    · simp [h]
    · have h2 : ¬ f q.2 = f t := fun hc => h (hf.injective hc)
      congr 1
      rw [Bool.eq_iff_iff]
      simp only [beq_iff_eq]
      exact ⟨fun hc => absurd hc h2, fun hc => absurd hc h⟩
  have e2 : ((fun q : ℕ × F => q.1 == 1 && decide (f t ≤ q.2)) ∘
      Prod.map (id : ℕ → ℕ) f) =
      (fun q : ℕ × F => q.1 == 1 && decide (t ≤ q.2)) := by
    funext q
    simp only [Function.comp_apply, Prod.map, id_eq]
    by_cases hle : t ≤ q.2
    · simp [hle, hf.le_iff_le.mpr hle]
    · have hlt : f q.2 < f t := hf (not_le.mp hle)
      simp [hle, hlt]
  have e3 : ((fun q : ℕ × F => decide (f t ≤ q.2)) ∘
      Prod.map (id : ℕ → ℕ) f) =
      (fun q : ℕ × F => decide (t ≤ q.2)) := by
    funext q
    simp only [Function.comp_apply, Prod.map, id_eq]
    by_cases hle : t ≤ q.2
    · simp [hle, hf.le_iff_le.mpr hle]
    · have hlt : f q.2 < f t := hf (not_le.mp hle)
      simp [hle, hlt]
  rw [e1, e2, e3]

/-- With `apply_sigmoid` set, the combined prediction vector is the
sigmoid image of the raw combined prediction vector. -/
theorem preds_all_true_eq_map (edges_pos edges_neg : List (ℕ × ℕ))
    (m : ℕ → ℕ → ℝ) :
    preds_all edges_pos edges_neg m true =
      (preds_all edges_pos edges_neg m false).map sigmoid := by
  simp [preds_all, edge_preds, List.map_map]
  rfl

/-- C7: `get_roc_score` returns the same ROC-AUC and the same average
precision with `apply_sigmoid` set as with it unset, on any pair of
non-empty edge lists and any score matrix: both metrics are invariant
under the strictly monotone logistic transform. -/
theorem get_roc_score_sigmoid_invariant (edges_pos edges_neg : List (ℕ × ℕ))
    (m : ℕ → ℕ → ℝ) (hp : edges_pos ≠ []) (hn : edges_neg ≠ []) :
    get_roc_score edges_pos edges_neg m true =
      get_roc_score edges_pos edges_neg m false := by
  unfold get_roc_score
  rw [preds_all_true_eq_map,
    roc_auc_score_strictMono sigmoid_strictMono,
    average_precision_score_strictMono sigmoid_strictMono]

/-- Witness for the sigmoid-invariance theorem at a concrete input. -/
theorem get_roc_score_sigmoid_invariant_witness :
    get_roc_score [(0, 1)] [(1, 2)] (fun i j => (i : ℝ) + j) true =
      get_roc_score [(0, 1)] [(1, 2)] (fun i j => (i : ℝ) + j) false :=
  get_roc_score_sigmoid_invariant [(0, 1)] [(1, 2)]
    (fun i j => (i : ℝ) + j) (by decide) (by decide)

/-- Zipping a constant label onto a list pairs the label with every
entry. -/
theorem zip_replicate_label {F : Type} (c : ℕ) :
    ∀ (l : List F) (n : ℕ), l.length = n →
      (List.replicate n c).zip l = l.map (fun x => (c, x)) := by
  intro l
  induction l with
  | nil => intro n h; subst h; rfl
  | cons a l ih =>
    intro n h
    subst h
    rw [List.length_cons, List.replicate_succ]
    simp [ih l.length rfl]

/-- On the vectors built by `get_roc_score`, the scores labelled 1 are
exactly the positive-edge predictions. -/
theorem scoresWithLabel_one_harness (edges_pos edges_neg : List (ℕ × ℕ))
    (m : ℕ → ℕ → ℝ) (s : Bool) :
    scoresWithLabel 1 (labels_all edges_pos edges_neg)
      (preds_all edges_pos edges_neg m s) = edge_preds edges_pos m s := by
  unfold scoresWithLabel labels_all preds_all
  rw [List.zip_append (by simp [edge_preds]),
    zip_replicate_label 1 (edge_preds edges_pos m s) edges_pos.length
      (by simp [edge_preds]),
    zip_replicate_label 0 (edge_preds edges_neg m s) edges_neg.length
      (by simp [edge_preds])]
  rw [List.filter_append, List.filter_map, List.filter_map]
  have p1 : ((fun q : ℕ × ℝ => q.1 == 1) ∘ fun x : ℝ => ((1 : ℕ), x)) =
      fun _ : ℝ => true := rfl
  have p2 : ((fun q : ℕ × ℝ => q.1 == 1) ∘ fun x : ℝ => ((0 : ℕ), x)) =
      fun _ : ℝ => false := rfl
  rw [p1, p2]
  simp [List.map_map]

/-- On the vectors built by `get_roc_score`, the scores labelled 0 are
exactly the negative-edge predictions. -/
theorem scoresWithLabel_zero_harness (edges_pos edges_neg : List (ℕ × ℕ))
    (m : ℕ → ℕ → ℝ) (s : Bool) :
    scoresWithLabel 0 (labels_all edges_pos edges_neg)
      (preds_all edges_pos edges_neg m s) = edge_preds edges_neg m s := by
  unfold scoresWithLabel labels_all preds_all
  rw [List.zip_append (by simp [edge_preds]),
    zip_replicate_label 1 (edge_preds edges_pos m s) edges_pos.length
      (by simp [edge_preds]),
    zip_replicate_label 0 (edge_preds edges_neg m s) edges_neg.length
      (by simp [edge_preds])]
  rw [List.filter_append, List.filter_map, List.filter_map]
  have p1 : ((fun q : ℕ × ℝ => q.1 == 0) ∘ fun x : ℝ => ((1 : ℕ), x)) =
      fun _ : ℝ => false := rfl
  have p2 : ((fun q : ℕ × ℝ => q.1 == 0) ∘ fun x : ℝ => ((0 : ℕ), x)) =
      fun _ : ℝ => true := rfl
  rw [p1, p2]
  simp [List.map_map]

/-- Summing a function that is constant on a list multiplies the constant
by the length. -/
theorem sum_map_eq_length_mul {α F : Type} [LinearOrderedField F]
    (l : List α) (g : α → F) (c : F) (h : ∀ x ∈ l, g x = c) :
    (l.map g).sum = (l.length : F) * c := by
  induction l with
  | nil => simp
  | cons a l ih =>
    rw [List.map_cons, List.sum_cons,
      ih (fun x hx => h x (List.mem_cons_of_mem a hx)),
      h a (List.mem_cons_self a l), List.length_cons]
    push_cast
    ring

/-- Without sigmoid, the per-edge predictions are the raw matrix
lookups. -/
theorem edge_preds_false (edges : List (ℕ × ℕ)) (m : ℕ → ℕ → ℝ) :
    edge_preds edges m false = edges.map (fun e => m e.1 e.2) := by
  simp [edge_preds]

/-- C8: on non-empty edge lists, if every positive edge's score is
strictly above every negative edge's score then `get_roc_score` returns
ROC-AUC 1, and if every positive edge's score is strictly below every
negative edge's score it returns ROC-AUC 0. -/
theorem get_roc_score_separated (edges_pos edges_neg : List (ℕ × ℕ))
    (m : ℕ → ℕ → ℝ) (hp : edges_pos ≠ []) (hn : edges_neg ≠ []) :
    ((∀ e ∈ edges_pos, ∀ e2 ∈ edges_neg, m e2.1 e2.2 < m e.1 e.2) →
      (get_roc_score edges_pos edges_neg m false).1 = 1) ∧
    ((∀ e ∈ edges_pos, ∀ e2 ∈ edges_neg, m e.1 e.2 < m e2.1 e2.2) →
      (get_roc_score edges_pos edges_neg m false).1 = 0) := by
  have hros : (get_roc_score edges_pos edges_neg m false).1 =
      ((edges_pos.map (fun e => m e.1 e.2)).map
          (fun s => ((edges_neg.map (fun e => m e.1 e.2)).map
            (fun t => pairCredit s t)).sum)).sum /
        (((edges_pos.map (fun e => m e.1 e.2)).length : ℝ) *
          ((edges_neg.map (fun e => m e.1 e.2)).length : ℝ)) := by
    show roc_auc_score (labels_all edges_pos edges_neg)
        (preds_all edges_pos edges_neg m false) = _
    simp only [roc_auc_score, scoresWithLabel_one_harness,
      scoresWithLabel_zero_harness, edge_preds_false]
  constructor
  · intro hgt
    rw [hros]
    have houter : ∀ x ∈ edges_pos.map (fun e => m e.1 e.2),
        (fun s => ((edges_neg.map (fun e => m e.1 e.2)).map
          (fun t => pairCredit s t)).sum) x = (edges_neg.length : ℝ) := by
      intro x hx
      obtain ⟨e, he, rfl⟩ := List.mem_map.mp hx
      dsimp only
      rw [List.map_map]
      rw [sum_map_eq_length_mul edges_neg _ 1 (fun e2 he2 => by
        simp only [Function.comp_apply]
        unfold pairCredit
        rw [if_pos (hgt e he e2 he2)])]
      rw [mul_one]
    rw [sum_map_eq_length_mul _ _ _ houter]
    simp only [List.length_map]
    have hd : ((edges_pos.length : ℝ) * (edges_neg.length : ℝ)) ≠ 0 := by
      have h1 : 0 < edges_pos.length := List.length_pos.mpr hp
      have h2 : 0 < edges_neg.length := List.length_pos.mpr hn
      positivity
    rw [div_self hd]
  · intro hlt
    rw [hros]
    have houter : ∀ x ∈ edges_pos.map (fun e => m e.1 e.2),
        (fun s => ((edges_neg.map (fun e => m e.1 e.2)).map
          (fun t => pairCredit s t)).sum) x = (0 : ℝ) := by
      intro x hx
      obtain ⟨e, he, rfl⟩ := List.mem_map.mp hx
      dsimp only
      rw [List.map_map]
      rw [sum_map_eq_length_mul edges_neg _ 0 (fun e2 he2 => by
        simp only [Function.comp_apply]
        unfold pairCredit
        rw [if_neg (lt_asymm (hlt e he e2 he2)),
          if_neg (ne_of_lt (hlt e he e2 he2))])]
      rw [mul_zero]
    rw [sum_map_eq_length_mul _ _ _ houter]
    rw [mul_zero, zero_div]

/-- Witness for the separated-scores theorem: one positive edge scoring 1
against one negative edge scoring 0 yields ROC-AUC 1. -/
theorem get_roc_score_separated_witness :
    (get_roc_score [(0, 1)] [(1, 0)]
      (fun i j => if i = 0 then (j : ℝ) else 0) false).1 = 1 := by
  refine (get_roc_score_separated [(0, 1)] [(1, 0)]
    (fun i j => if i = 0 then (j : ℝ) else 0) (by decide) (by decide)).1 ?_
  intro e he e2 he2
  simp only [List.mem_singleton] at he he2
  subst he
  subst he2
  norm_num

/-- One assignment pair of the heuristic score-matrix fill loop
(source lines 64-65): `matrix[u][v] = p` followed by `matrix[v][u] = p`
for a triple `(u, v, p)` emitted by the index generator. -/
def symmUpdate {F : Type} (mat : ℕ → ℕ → F) (t : ℕ × ℕ × F) : ℕ → ℕ → F :=
  fun i j =>
    if (i = t.1 ∧ j = t.2.1) ∨ (i = t.2.1 ∧ j = t.1) then t.2.2 else mat i j

/-- The raw heuristic score matrix (source lines 62-65, and identically
lines 83-86 and 104-107): a zero matrix filled by the loop over the index
generator's `(u, v, p)` triples, writing `p` at both `(u, v)` and
`(v, u)`. -/
def buildIndexMatrix {F : Type} [LinearOrderedField F]
    (triples : List (ℕ × ℕ × F)) : ℕ → ℕ → F :=
  triples.foldl symmUpdate (fun _ _ => 0)

/-- All entries of an n-by-n matrix as a list, row by row. -/
def matEntries {F : Type} (n : ℕ) (mat : ℕ → ℕ → F) : List F :=
  (List.range n).flatMap (fun i => (List.range n).map (fun j => mat i j))

/-- The maximum entry of an n-by-n matrix (`matrix.max()` in numpy),
0 for the empty matrix. -/
def matMax {F : Type} [LinearOrderedField F] (n : ℕ) (mat : ℕ → ℕ → F) :
    F :=
  ((matEntries n mat).maximum).unbot' 0

/-- The normalized heuristic score matrix (source line 66, and identically
lines 87 and 108): the raw index matrix divided entrywise by its maximum
entry. -/
def heuristic_score_matrix {F : Type} [LinearOrderedField F] (n : ℕ)
    (triples : List (ℕ × ℕ × F)) : ℕ → ℕ → F :=
  fun i j => buildIndexMatrix triples i j / matMax n (buildIndexMatrix triples)

/-- Folding symmetric updates over a symmetric initial matrix yields a
symmetric matrix. -/
theorem foldl_symmUpdate_symm {F : Type} [LinearOrderedField F] :
    ∀ (ts : List (ℕ × ℕ × F)) (init : ℕ → ℕ → F),
      (∀ i j, init i j = init j i) →
      ∀ i j, ts.foldl symmUpdate init i j = ts.foldl symmUpdate init j i := by
  intro ts
  induction ts with
  | nil => intro init h; exact h
  | cons t ts ih =>
    intro init h i j
    rw [List.foldl_cons]
    apply ih
    intro a b
    unfold symmUpdate
    by_cases hc : (a = t.1 ∧ b = t.2.1) ∨ (a = t.2.1 ∧ b = t.1)
    · rw [if_pos hc,
        if_pos (hc.elim (fun hh => Or.inr ⟨hh.2, hh.1⟩)
          (fun hh => Or.inl ⟨hh.2, hh.1⟩))]
    · rw [if_neg hc,
        if_neg (fun hc2 => hc (hc2.elim (fun hh => Or.inr ⟨hh.2, hh.1⟩)
          (fun hh => Or.inl ⟨hh.2, hh.1⟩))), h a b]

/-- A matrix cell not named by any triple is untouched by the fill
loop. -/
theorem foldl_symmUpdate_untouched {F : Type} [LinearOrderedField F] :
    ∀ (ts : List (ℕ × ℕ × F)) (init : ℕ → ℕ → F) (i j : ℕ),
      (∀ t ∈ ts, ¬((i = t.1 ∧ j = t.2.1) ∨ (i = t.2.1 ∧ j = t.1))) →
      ts.foldl symmUpdate init i j = init i j := by
  intro ts
  induction ts with
  | nil => intro init i j _; rfl
  | cons t ts ih =>
    intro init i j h
    rw [List.foldl_cons,
      ih _ i j (fun t2 ht2 => h t2 (List.mem_cons_of_mem t ht2))]
    unfold symmUpdate
    rw [if_neg (h t (List.mem_cons_self t ts))]

/-- When the triples name pairwise-distinct unordered pairs — as the
networkx index generators do, emitting each non-adjacent pair once — the
filled matrix holds each triple's index value at the triple's cell. -/
theorem buildIndexMatrix_cell {F : Type} [LinearOrderedField F] :
    ∀ (ts : List (ℕ × ℕ × F)) (init : ℕ → ℕ → F) (t : ℕ × ℕ × F),
      t ∈ ts →
      ts.Pairwise (fun a b =>
        ¬(a.1 = b.1 ∧ a.2.1 = b.2.1) ∧ ¬(a.1 = b.2.1 ∧ a.2.1 = b.1)) →
      ts.foldl symmUpdate init t.1 t.2.1 = t.2.2 := by
  intro ts
  induction ts with
  | nil => intro init t ht; exact absurd ht (List.not_mem_nil t)
  | cons a ts ih =>
    intro init t ht hpw
    rcases List.mem_cons.mp ht with rfl | hmem
    · rw [List.foldl_cons]
      rw [foldl_symmUpdate_untouched ts _ t.1 t.2.1 (fun t2 ht2 hc => by
        have hpair := (List.pairwise_cons.mp hpw).1 t2 ht2
        rcases hc with ⟨h1, h2⟩ | ⟨h1, h2⟩
        · exact hpair.1 ⟨h1, h2⟩
        · exact hpair.2 ⟨h1, h2⟩)]
      unfold symmUpdate
      rw [if_pos (Or.inl ⟨rfl, rfl⟩)]
    · rw [List.foldl_cons]
      exact ih _ t hmem (List.pairwise_cons.mp hpw).2

/-- Every in-range cell value is listed among the matrix entries. -/
theorem matEntries_mem {F : Type} (n : ℕ) (mat : ℕ → ℕ → F) (i j : ℕ)
    (hi : i < n) (hj : j < n) : mat i j ∈ matEntries n mat := by
  simp only [matEntries, List.mem_flatMap, List.mem_map, List.mem_range]
  exact ⟨i, hi, ⟨j, hj, rfl⟩⟩

/-- Entrywise post-composition maps the entry list. -/
theorem matEntries_comp {F G : Type} (n : ℕ) (mat : ℕ → ℕ → F)
    (g : F → G) :
    matEntries n (fun i j => g (mat i j)) = (matEntries n mat).map g := by
  simp only [matEntries, List.map_flatMap, List.map_map]
  rfl

/-- C6: the heuristic scorers' normalized score matrix is symmetric, and
its maximum entry equals 1 after division by the matrix maximum, whenever
the index generator emits in-range, non-negative indices on pairwise
distinct unordered pairs and at least one index value is non-zero. -/
theorem heuristic_score_matrix_normalized {F : Type} [LinearOrderedField F]
    (n : ℕ) (triples : List (ℕ × ℕ × F))
    (hb : ∀ t ∈ triples, t.1 < n ∧ t.2.1 < n)
    (hnn : ∀ t ∈ triples, 0 ≤ t.2.2)
    (hdist : triples.Pairwise (fun a b =>
      ¬(a.1 = b.1 ∧ a.2.1 = b.2.1) ∧ ¬(a.1 = b.2.1 ∧ a.2.1 = b.1)))
    (hex : ∃ t ∈ triples, t.2.2 ≠ 0) :
    (∀ i j, heuristic_score_matrix n triples i j =
      heuristic_score_matrix n triples j i) ∧
    matMax n (heuristic_score_matrix n triples) = 1 := by
  obtain ⟨t0, ht0, hne0⟩ := hex
  have hp0 : 0 < t0.2.2 := lt_of_le_of_ne (hnn t0 ht0) (Ne.symm hne0)
  have hcell : buildIndexMatrix triples t0.1 t0.2.1 = t0.2.2 :=
    buildIndexMatrix_cell triples _ t0 ht0 hdist
  have hmem : t0.2.2 ∈ matEntries n (buildIndexMatrix triples) := by
    rw [← hcell]
    exact matEntries_mem n _ t0.1 t0.2.1 (hb t0 ht0).1 (hb t0 ht0).2
  obtain ⟨M, hM⟩ := WithBot.ne_bot_iff_exists.mp
    (List.maximum_ne_bot_of_ne_nil (List.ne_nil_of_mem hmem))
  have hMle : ∀ a ∈ matEntries n (buildIndexMatrix triples), a ≤ M :=
    (List.maximum_eq_coe_iff.mp hM.symm).2
  have hMmem : M ∈ matEntries n (buildIndexMatrix triples) :=
    (List.maximum_eq_coe_iff.mp hM.symm).1
  have hMpos : 0 < M := lt_of_lt_of_le hp0 (hMle t0.2.2 hmem)
  have hmax : matMax n (buildIndexMatrix triples) = M := by
    unfold matMax
    rw [← hM, WithBot.unbot'_coe]
  constructor
  · intro i j
    unfold heuristic_score_matrix buildIndexMatrix
    rw [foldl_symmUpdate_symm triples (fun _ _ => (0 : F)) (fun _ _ => rfl)
      i j]
  · have hentries : matEntries n (heuristic_score_matrix n triples) =
        (matEntries n (buildIndexMatrix triples)).map
          (fun x => x / matMax n (buildIndexMatrix triples)) := by
      exact matEntries_comp n (buildIndexMatrix triples)
        (fun x => x / matMax n (buildIndexMatrix triples))
    have hone : ((matEntries n (heuristic_score_matrix n triples)).maximum)
        = ((1 : F) : WithBot F) := by
      rw [hentries, List.maximum_eq_coe_iff]
      constructor
      · rw [List.mem_map]
        refine ⟨M, hMmem, ?_⟩
        rw [hmax]
        exact div_self (ne_of_gt hMpos)
      · intro b hb2
        obtain ⟨a, ha, rfl⟩ := List.mem_map.mp hb2
        rw [hmax]
        exact (div_le_one hMpos).mpr (hMle a ha)
    unfold matMax
    rw [hone, WithBot.unbot'_coe]

/-- Witness for the heuristic normalization theorem: one triple (0, 1, 2)
over the rationals on a 2-by-2 matrix. -/
theorem heuristic_score_matrix_normalized_witness :
    (∀ i j, heuristic_score_matrix 2 [(0, 1, (2 : ℚ))] i j =
      heuristic_score_matrix 2 [(0, 1, (2 : ℚ))] j i) ∧
    matMax 2 (heuristic_score_matrix 2 [(0, 1, (2 : ℚ))]) = 1 := by
  refine heuristic_score_matrix_normalized 2 [(0, 1, (2 : ℚ))] ?_ ?_ ?_ ?_
  · intro t ht
    simp only [List.mem_singleton] at ht
    subst ht
    exact ⟨by decide, by decide⟩
  · intro t ht
    simp only [List.mem_singleton] at ht
    subst ht
    norm_num
  · simp
  · exact ⟨(0, 1, (2 : ℚ)), by simp, by norm_num⟩

/-- Maximum entry of an entirely zero matrix: it is 0 (whether the matrix
is empty or not). -/
theorem matMax_zero_of_all_zero {F : Type} [LinearOrderedField F] (n : ℕ)
    (mat : ℕ → ℕ → F) (hz : ∀ i j, mat i j = 0) : matMax n mat = 0 := by
  have hall : ∀ x ∈ matEntries n mat, x = 0 := by
    intro x hx
    simp only [matEntries, List.mem_flatMap, List.mem_map,
      List.mem_range] at hx
    obtain ⟨i, -, j, -, rfl⟩ := hx
    exact hz i j
  unfold matMax
  rcases hM : (matEntries n mat).maximum with - | M
  · rfl
  · have hMmem : M ∈ matEntries n mat := List.maximum_mem hM
    have h0 : M = 0 := hall M hMmem
    rw [h0]
    rfl

/-- The Adamic-Adar scorer pipeline `adamic_adar_scores`
(source lines 55-71), with the networkx index generator abstracted as the
`(u, v, p)` triples: build the raw matrix, normalize it by its maximum
entry, evaluate on the test edge sets via `get_roc_score`, and return the
metrics record. Modelled from the spec for the error path of the external
metric library: when the raw matrix is entirely zero its maximum is 0, the
normalization divides by zero, every score looked up by `get_roc_score` is
non-finite in float arithmetic (0.0/0.0 is NaN), and sklearn's
`roc_auc_score` and `average_precision_score` reject non-finite inputs
with a ValueError — the DegenerateMetricInput condition of spec
section 7 — so the run aborts with no metrics record, modelled as `none`.
Otherwise all scores are finite and the two-field record is returned. -/
noncomputable def adamic_adar_scores (n : ℕ) (aa_triples : List (ℕ × ℕ × ℝ))
    (test_edges test_edges_false : List (ℕ × ℕ)) :
    Option (List (String × ℝ)) :=
  if matMax n (buildIndexMatrix aa_triples) = 0 then none
  else
    let aa_matrix := heuristic_score_matrix n aa_triples
    let r := get_roc_score test_edges test_edges_false aa_matrix false
    some [("test_roc", r.1), ("test_ap", r.2)]

/-- C9: if a heuristic scorer's raw score matrix is entirely zero — so
the normalization by the matrix maximum divides by zero — the run fails
(the scorer aborts with an error once the non-finite scores reach the
metric calls) rather than continuing to produce a metrics record. -/
theorem adamic_adar_scores_zero_matrix_fails (n : ℕ)
    (aa_triples : List (ℕ × ℕ × ℝ))
    (test_edges test_edges_false : List (ℕ × ℕ))
    (hz : ∀ i j, buildIndexMatrix aa_triples i j = 0) :
    adamic_adar_scores n aa_triples test_edges test_edges_false =
      none := by
  unfold adamic_adar_scores
  rw [if_pos (matMax_zero_of_all_zero n (buildIndexMatrix aa_triples) hz)]

/-- Witness for the degenerate-input failure theorem: an index generator
that emits nothing leaves the raw matrix entirely zero, and the scorer
aborts with no metrics record. -/
theorem adamic_adar_scores_zero_matrix_fails_witness :
    adamic_adar_scores 2 [] [(0, 1)] [(1, 0)] = none :=
  adamic_adar_scores_zero_matrix_fails 2 [] [(0, 1)] [(1, 0)]
    (fun _ _ => rfl)

/-- A value stored in a predictor's metrics record: a single metric number
or the GAE per-epoch trajectory list. -/
inductive MetricValue where
  | num : ℝ → MetricValue
  | trajectory : List ℝ → MetricValue

/-- The metrics record of the three heuristic scorers (source lines 69-70,
90-91, 111-112): test ROC then test AP, no validation metrics. -/
def heuristicRecord (troc tap : ℝ) : List (String × MetricValue) :=
  [("test_roc", MetricValue.num troc), ("test_ap", MetricValue.num tap)]

/-- The metrics record of the spectral-clustering and node2vec scorers
(source lines 131-134 and 230-234): test and validation ROC and AP. -/
def valRecord (troc tap vroc vap : ℝ) : List (String × MetricValue) :=
  [("test_roc", MetricValue.num troc), ("test_ap", MetricValue.num tap),
    ("val_roc", MetricValue.num vroc), ("val_ap", MetricValue.num vap)]

/-- The metrics record of the GAE scorer (source lines 360-365): test and
validation ROC and AP plus the per-epoch validation-ROC trajectory. -/
def gaeRecord (troc tap vroc vap : ℝ) (vlist : List ℝ) :
    List (String × MetricValue) :=
  [("test_roc", MetricValue.num troc), ("test_ap", MetricValue.num tap),
    ("val_roc", MetricValue.num vroc), ("val_ap", MetricValue.num vap),
    ("val_roc_list", MetricValue.trajectory vlist)]

/-- The scores dictionary assembled by `calculate_all_scores`
(source lines 378-474): one record per predictor, inserted under the keys
aa, jc, pa, sc, n2v, gae in that order, with the numeric metric values
abstracted as parameters since the predictors' internals are external
collaborators. -/
def lp_scores (aat aap jct jcp pat pap sct scp scvr scvp n2t n2p n2vr n2vp
    gt gp gvr gvp : ℝ) (gl : List ℝ) :
    List (String × List (String × MetricValue)) :=
  [("aa", heuristicRecord aat aap),
    ("jc", heuristicRecord jct jcp),
    ("pa", heuristicRecord pat pap),
    ("sc", valRecord sct scp scvr scvp),
    ("n2v", valRecord n2t n2p n2vr n2vp),
    ("gae", gaeRecord gt gp gvr gvp gl)]

/-- C5 counterexample: the key heuristic-AA named by the spec does not
occur among the keys of the scores dictionary returned by
`calculate_all_scores` (and likewise for the other spec names) — the code
uses the keys aa, jc, pa, sc, n2v, gae. -/
theorem lp_scores_spec_keys_absent :
    ("heuristic-AA" ∈ (lp_scores 0 0 0 0 0 0 0 0 0 0 0 0 0 0 0 0 0 0
      []).map Prod.fst) = False := by
  simp [lp_scores, heuristicRecord, valRecord, gaeRecord]

/-- C5 amended: the scores dictionary of `calculate_all_scores` has
exactly the keys aa, jc, pa, sc, n2v, gae (the Adamic-Adar, Jaccard,
preferential-attachment, spectral, node2vec and GAE predictors); every
record carries test_roc and test_ap; the predictors that use a validation
set (sc, n2v, gae) additionally carry val_roc and val_ap; and the gae
record additionally carries the per-epoch trajectory val_roc_list. -/
theorem lp_scores_structure (aat aap jct jcp pat pap sct scp scvr scvp
    n2t n2p n2vr n2vp gt gp gvr gvp : ℝ) (gl : List ℝ) :
    ((lp_scores aat aap jct jcp pat pap sct scp scvr scvp n2t n2p n2vr n2vp
        gt gp gvr gvp gl).map Prod.fst =
      ["aa", "jc", "pa", "sc", "n2v", "gae"]) ∧
    (((lp_scores aat aap jct jcp pat pap sct scp scvr scvp n2t n2p n2vr n2vp
        gt gp gvr gvp gl).lookup "aa").map (fun r => r.map Prod.fst) =
      some ["test_roc", "test_ap"]) ∧
    (((lp_scores aat aap jct jcp pat pap sct scp scvr scvp n2t n2p n2vr n2vp
        gt gp gvr gvp gl).lookup "jc").map (fun r => r.map Prod.fst) =
      some ["test_roc", "test_ap"]) ∧
    (((lp_scores aat aap jct jcp pat pap sct scp scvr scvp n2t n2p n2vr n2vp
        gt gp gvr gvp gl).lookup "pa").map (fun r => r.map Prod.fst) =
      some ["test_roc", "test_ap"]) ∧
    (((lp_scores aat aap jct jcp pat pap sct scp scvr scvp n2t n2p n2vr n2vp
        gt gp gvr gvp gl).lookup "sc").map (fun r => r.map Prod.fst) =
      some ["test_roc", "test_ap", "val_roc", "val_ap"]) ∧
    (((lp_scores aat aap jct jcp pat pap sct scp scvr scvp n2t n2p n2vr n2vp
        gt gp gvr gvp gl).lookup "n2v").map (fun r => r.map Prod.fst) =
      some ["test_roc", "test_ap", "val_roc", "val_ap"]) ∧
    (((lp_scores aat aap jct jcp pat pap sct scp scvr scvp n2t n2p n2vr n2vp
        gt gp gvr gvp gl).lookup "gae").map (fun r => r.map Prod.fst) =
      some ["test_roc", "test_ap", "val_roc", "val_ap", "val_roc_list"]) :=
  ⟨rfl, rfl, rfl, rfl, rfl, rfl, rfl⟩

/-- The GAE training loop's validation-ROC trajectory (source lines
311-338): starting from the empty list, each of the EPOCHS epochs appends
exactly one validation-ROC value. The per-epoch value is abstracted as a
function of the epoch index, since the neural model is an external
collaborator. -/
def gae_val_roc_list (EPOCHS : ℕ) (epoch_val_roc : ℕ → ℝ) : List ℝ :=
  (List.range EPOCHS).foldl
    (fun val_roc_score epoch => val_roc_score ++ [epoch_val_roc epoch]) []

/-- Appending one element per fold step grows the accumulator by the list
length. -/
theorem foldl_append_singleton_length {α β : Type} (f : α → β) :
    ∀ (l : List α) (init : List β),
      (l.foldl (fun acc e => acc ++ [f e]) init).length =
        init.length + l.length := by
  intro l
  induction l with
  | nil => intro init; simp
  | cons a l ih =>
    intro init
    rw [List.foldl_cons, ih (init ++ [f a])]
    simp
    omega

/-- C10: the per-epoch validation-ROC trajectory returned by `gae_scores`
has length exactly EPOCHS — one value appended per training epoch. -/
theorem gae_val_roc_list_length (EPOCHS : ℕ) (epoch_val_roc : ℕ → ℝ) :
    (gae_val_roc_list EPOCHS epoch_val_roc).length = EPOCHS := by
  unfold gae_val_roc_list
  rw [foldl_append_singleton_length epoch_val_roc (List.range EPOCHS) []]
  simp

/-- Modelled from the spec: the deterministic pseudorandom number stream
driving the edge split (spec sections 4.1 and 5). The implementation of
`mask_test_edges` lives in the vendored `gae.preprocessing` module, outside
the given source file, so the numpy global generator is modelled by an
explicit linear congruential generator state threaded through the split. -/
def lcgNext (s : ℕ) : ℕ := (75 * s + 74) % 65537

/-- Modelled from the spec: step 1 of the Edge Split Engine — enumerate
all positive edges from the upper triangle of the symmetric adjacency,
each unordered pair counted once (spec section 4.1). -/
def upperEdges (n : ℕ) (adj : ℕ → ℕ → Bool) : List (ℕ × ℕ) :=
  (List.range n).flatMap (fun i =>
    ((List.range n).filter (fun j => decide (i < j) && adj i j)).map
      (fun j => (i, j)))

/-- Modelled from the spec: step 2 of the Edge Split Engine — a
deterministic Fisher-Yates-style shuffle driven by the seed: repeatedly
pick the position given by the current generator state and remove it. The
fuel argument equals the list length at the top-level call. -/
def fisherYates {α : Type} : ℕ → List α → ℕ → List α
  | 0, _, _ => []
  | _ + 1, [], _ => []
  | fuel + 1, a :: rest, s =>
    (a :: rest).getD (s % (a :: rest).length) a ::
      fisherYates fuel ((a :: rest).eraseIdx (s % (a :: rest).length))
        (lcgNext s)

/-- Modelled from the spec: the deterministic shuffle of a list by a
seed. -/
def shuffleList {α : Type} (l : List α) (seed : ℕ) : List α :=
  fisherYates l.length l seed

/-- Canonicalized unordered pair, as used by the negative sampler's
membership structure (spec section 4.1, step 5). -/
def canonPair (i j : ℕ) : ℕ × ℕ := if i ≤ j then (i, j) else (j, i)

/-- Modelled from the spec: step 5 of the Edge Split Engine — sample
negative pairs uniformly without replacement until the target count is
reached, rejecting self-pairs, pairs present in the ORIGINAL adjacency,
pairs already chosen in another split's negative set (the avoid list) and
pairs already chosen in this set; step 6 — give up (signal the validation
error as `none`) when the bounded number of attempts (the fuel) is
exhausted. Returns the sampled list and the final generator state. -/
def sampleNegs (n : ℕ) (adj : ℕ → ℕ → Bool) :
    ℕ → ℕ → List (ℕ × ℕ) → List (ℕ × ℕ) → ℕ →
      Option (List (ℕ × ℕ) × ℕ)
  | _, 0, _, acc, s => some (acc.reverse, s)
  | 0, _ + 1, _, _, _ => none
  | fuel + 1, target + 1, avoid, acc, s =>
    let s1 := lcgNext s
    let s2 := lcgNext s1
    let i := s1 % n
    let j := s2 % n
    let e := canonPair i j
    if i != j && !(adj i j) && !(decide (e ∈ avoid)) && !(decide (e ∈ acc))
    then sampleNegs n adj fuel target avoid (e :: acc) s2
    else sampleNegs n adj fuel (target + 1) avoid acc s2

/-- The train/val/test split record returned by `mask_test_edges`
(spec section 4.1), in the tuple order of the source's unpacking
(source lines 382-383). -/
structure Split where
  adj_train : ℕ → ℕ → Bool
  train_edges : List (ℕ × ℕ)
  train_edges_false : List (ℕ × ℕ)
  val_edges : List (ℕ × ℕ)
  val_edges_false : List (ℕ × ℕ)
  test_edges : List (ℕ × ℕ)
  test_edges_false : List (ℕ × ℕ)

/-- Modelled from the spec: step 3's split sizes —
`test_count = floor(test_fraction * num_edges)` and
`val_count = floor(val_fraction * num_edges)` (spec section 4.1). -/
def splitCounts (test_frac val_frac : ℚ) (numEdges : ℕ) : ℕ × ℕ :=
  ((Int.floor (test_frac * (numEdges : ℚ))).toNat,
    (Int.floor (val_frac * (numEdges : ℚ))).toNat)

/-- Modelled from the spec: the Edge Split Engine with the held-out counts
already computed — shuffle the positive edges, take the test then val
prefixes, keep the rest for training, remove the held-out edges from the
adjacency in both directions, and sample the three negative sets, each
sized to its positive counterpart, with the val negatives avoiding the
test negatives and the train negatives avoiding both (spec section 4.1).
An empty edge set or an exhausted negative sampler yields `none` (the
InvalidSplitConfiguration and NegativeSamplingExhausted errors of spec
section 7). -/
def mask_test_edges_core (n : ℕ) (adj : ℕ → ℕ → Bool)
    (numTest numVal : ℕ) (seed fuel : ℕ) : Option Split :=
  let edges := upperEdges n adj
  if edges.length = 0 then none
  else
    let shuffled := shuffleList edges seed
    let test_edges := shuffled.take numTest
    let val_edges := (shuffled.drop numTest).take numVal
    let train_edges := (shuffled.drop numTest).drop numVal
    let adj_train : ℕ → ℕ → Bool := fun i j =>
      adj i j && !(decide ((i, j) ∈ test_edges ++ val_edges) ||
        decide ((j, i) ∈ test_edges ++ val_edges))
    match sampleNegs n adj fuel test_edges.length [] [] (lcgNext seed) with
    | none => none
    | some (test_edges_false, s1) =>
      match sampleNegs n adj fuel val_edges.length test_edges_false []
          s1 with
      | none => none
      | some (val_edges_false, s2) =>
        match sampleNegs n adj fuel train_edges.length
            (test_edges_false ++ val_edges_false) [] s2 with
        | none => none
        | some (train_edges_false, _) =>
          some ⟨adj_train, train_edges, train_edges_false, val_edges,
            val_edges_false, test_edges, test_edges_false⟩

/-- Modelled from the spec: the Edge Split Engine
`split(adjacency, test_fraction, val_fraction, seed)` of spec section 4.1,
standing for the vendored `mask_test_edges` imported at source line 17 and
called at source line 381. -/
def mask_test_edges (n : ℕ) (adj : ℕ → ℕ → Bool)
    (test_frac val_frac : ℚ) (seed fuel : ℕ) : Option Split :=
  mask_test_edges_core n adj
    (splitCounts test_frac val_frac (upperEdges n adj).length).1
    (splitCounts test_frac val_frac (upperEdges n adj).length).2 seed fuel

/-- The positive part (train, val, test) of the split. -/
def maskPositives (n : ℕ) (adj : ℕ → ℕ → Bool) (test_frac val_frac : ℚ)
    (seed fuel : ℕ) :
    Option (List (ℕ × ℕ) × List (ℕ × ℕ) × List (ℕ × ℕ)) :=
  (mask_test_edges n adj test_frac val_frac seed fuel).map
    (fun sp => (sp.train_edges, sp.val_edges, sp.test_edges))

/-- The negative part (train, val, test) of the split. -/
def maskNegatives (n : ℕ) (adj : ℕ → ℕ → Bool) (test_frac val_frac : ℚ)
    (seed fuel : ℕ) :
    Option (List (ℕ × ℕ) × List (ℕ × ℕ) × List (ℕ × ℕ)) :=
  (mask_test_edges n adj test_frac val_frac seed fuel).map
    (fun sp => (sp.train_edges_false, sp.val_edges_false,
      sp.test_edges_false))

/-- Modelled from the spec: the split stage of `calculate_all_scores`
(source lines 373-383) — whatever pseudorandom state the process carries
when the function is entered, `np.random.seed(0)` (source line 375) resets
the generator before `mask_test_edges` runs, so the split uses the fixed
seed 0. -/
def calculate_all_scores_split (n : ℕ) (adj : ℕ → ℕ → Bool)
    (test_frac val_frac : ℚ) (fuel : ℕ) (rng_state : ℕ) : Option Split :=
  mask_test_edges n adj test_frac val_frac 0 fuel

/-- C3: the split stage of `calculate_all_scores` is a deterministic
function of the adjacency and the fractions — whatever pseudorandom state
two runs start from, they produce identical train/val/test partitions,
because the seed is fixed once at the start of the run. -/
theorem calculate_all_scores_split_deterministic (n : ℕ)
    (adj : ℕ → ℕ → Bool) (test_frac val_frac : ℚ) (fuel : ℕ)
    (s1 s2 : ℕ) :
    calculate_all_scores_split n adj test_frac val_frac fuel s1 =
      calculate_all_scores_split n adj test_frac val_frac fuel s2 := rfl

/-- Every pair returned by the negative sampler was either already
accumulated or is a freshly accepted candidate: a canonicalized non-self
pair absent from the original adjacency and outside the avoid list. -/
theorem sampleNegs_sound (n : ℕ) (adj : ℕ → ℕ → Bool) :
    ∀ (fuel target : ℕ) (avoid acc : List (ℕ × ℕ)) (s : ℕ)
      (res : List (ℕ × ℕ)) (sf : ℕ),
      sampleNegs n adj fuel target avoid acc s = some (res, sf) →
      ∀ e ∈ res, e ∈ acc ∨
        ((∃ a b, e = canonPair a b ∧ a ≠ b ∧ adj a b = false) ∧
          e ∉ avoid) := by
  intro fuel
  induction fuel with
  | zero =>
    intro target avoid acc s res sf h e he
    cases target with
    | zero =>
      simp only [sampleNegs, Option.some.injEq, Prod.mk.injEq] at h
      left
      rw [← h.1] at he
      exact List.mem_reverse.mp he
    | succ t =>
      simp only [sampleNegs] at h
      exact Option.noConfusion h
  | succ fuel ih =>
    intro target avoid acc s res sf h e he
    cases target with
    | zero =>
      simp only [sampleNegs, Option.some.injEq, Prod.mk.injEq] at h
      left
      rw [← h.1] at he
      exact List.mem_reverse.mp he
    | succ t =>
      simp only [sampleNegs] at h
      split at h
      case isTrue hcond =>
        simp only [Bool.and_eq_true, bne_iff_ne, Bool.not_eq_true',
          decide_eq_false_iff_not] at hcond
        obtain ⟨⟨⟨hne, hadj⟩, hav⟩, hac⟩ := hcond
        rcases ih t avoid _ _ res sf h e he with hmem | hgood
        · rcases List.mem_cons.mp hmem with hme | hmem2
          · refine Or.inr ⟨⟨_, _, hme, hne, hadj⟩, ?_⟩
            rw [hme]
            exact hav
          · exact Or.inl hmem2
        · exact Or.inr hgood
      case isFalse hcond =>
        exact ih (t + 1) avoid acc _ res sf h e he

/-- The negative sampler never stores the same pair twice. -/
theorem sampleNegs_nodup (n : ℕ) (adj : ℕ → ℕ → Bool) :
    ∀ (fuel target : ℕ) (avoid acc : List (ℕ × ℕ)) (s : ℕ)
      (res : List (ℕ × ℕ)) (sf : ℕ),
      sampleNegs n adj fuel target avoid acc s = some (res, sf) →
      acc.Nodup → res.Nodup := by
  intro fuel
  induction fuel with
  | zero =>
    intro target avoid acc s res sf h hacc
    cases target with
    | zero =>
      simp only [sampleNegs, Option.some.injEq, Prod.mk.injEq] at h
      rw [← h.1]
      exact List.nodup_reverse.mpr hacc
    | succ t =>
      simp only [sampleNegs] at h
      exact Option.noConfusion h
  | succ fuel ih =>
    intro target avoid acc s res sf h hacc
    cases target with
    | zero =>
      simp only [sampleNegs, Option.some.injEq, Prod.mk.injEq] at h
      rw [← h.1]
      exact List.nodup_reverse.mpr hacc
    | succ t =>
      simp only [sampleNegs] at h
      split at h
      case isTrue hcond =>
        simp only [Bool.and_eq_true, bne_iff_ne, Bool.not_eq_true',
          decide_eq_false_iff_not] at hcond
        exact ih t avoid _ _ res sf h
          (List.nodup_cons.mpr ⟨hcond.2, hacc⟩)
      case isFalse hcond =>
        exact ih (t + 1) avoid acc _ res sf h hacc

/-- An edge listed in the upper-triangle enumeration is present in the
adjacency. -/
theorem adj_of_mem_upperEdges (n : ℕ) (adj : ℕ → ℕ → Bool) (e : ℕ × ℕ)
    (h : e ∈ upperEdges n adj) : adj e.1 e.2 = true := by
  simp only [upperEdges, List.mem_flatMap, List.mem_map, List.mem_filter,
    List.mem_range, Bool.and_eq_true, decide_eq_true_eq] at h
  obtain ⟨i, hi, j, ⟨hj, hcond⟩, rfl⟩ := h
  exact hcond.2

/-- For a symmetric adjacency, a canonicalized non-edge is absent in both
orientations. -/
theorem canon_adj_false (adj : ℕ → ℕ → Bool)
    (hsym : ∀ i j, adj i j = adj j i) (a b : ℕ) (hadj : adj a b = false) :
    adj (canonPair a b).1 (canonPair a b).2 = false ∧
    adj (canonPair a b).2 (canonPair a b).1 = false := by
  unfold canonPair
  by_cases hle : a ≤ b
  · rw [if_pos hle]
    exact ⟨hadj, by rw [hsym b a]; exact hadj⟩
  · rw [if_neg hle]
    exact ⟨by rw [hsym b a]; exact hadj, hadj⟩

/-- Pairs accepted by the negative sampler starting from an empty
accumulator are non-edges in both orientations, absent from the positive
edge enumeration, and outside the avoid list. -/
theorem negList_good (n : ℕ) (adj : ℕ → ℕ → Bool)
    (hsym : ∀ i j, adj i j = adj j i) (L A : List (ℕ × ℕ))
    (hs : ∀ e ∈ L, e ∈ ([] : List (ℕ × ℕ)) ∨
      ((∃ a b, e = canonPair a b ∧ a ≠ b ∧ adj a b = false) ∧ e ∉ A)) :
    ∀ e ∈ L, (adj e.1 e.2 = false ∧ adj e.2 e.1 = false ∧
      e ∉ upperEdges n adj) ∧ e ∉ A := by
  intro e he
  rcases hs e he with hnil | ⟨⟨a, b, hme, hne, hadj⟩, havoid⟩
  · exact absurd hnil (List.not_mem_nil e)
  · obtain ⟨hf1, hf2⟩ := canon_adj_false adj hsym a b hadj
    rw [hme] at havoid ⊢
    refine ⟨⟨hf1, hf2, fun hmem => ?_⟩, havoid⟩
    have hcontr := adj_of_mem_upperEdges n adj _ hmem
    rw [hf1] at hcontr
    exact Bool.noConfusion hcontr

/-- Anatomy of a successful split: the positive sets are the take/drop
partition of the shuffled edge enumeration, and the three negative sets
are produced by the sampler with the test negatives sampled first, the
val negatives avoiding them, and the train negatives avoiding both. -/
theorem mask_core_spec (n : ℕ) (adj : ℕ → ℕ → Bool)
    (numTest numVal seed fuel : ℕ) (sp : Split)
    (h : mask_test_edges_core n adj numTest numVal seed fuel = some sp) :
    sp.test_edges = (shuffleList (upperEdges n adj) seed).take numTest ∧
    sp.val_edges =
      ((shuffleList (upperEdges n adj) seed).drop numTest).take numVal ∧
    sp.train_edges =
      ((shuffleList (upperEdges n adj) seed).drop numTest).drop numVal ∧
    ∃ s1 s2 s3,
      sampleNegs n adj fuel sp.test_edges.length [] [] (lcgNext seed) =
        some (sp.test_edges_false, s1) ∧
      sampleNegs n adj fuel sp.val_edges.length sp.test_edges_false []
          s1 = some (sp.val_edges_false, s2) ∧
      sampleNegs n adj fuel sp.train_edges.length
          (sp.test_edges_false ++ sp.val_edges_false) [] s2 =
        some (sp.train_edges_false, s3) := by
  simp only [mask_test_edges_core] at h
  split at h
  · exact Option.noConfusion h
  · split at h
    next heq1 => exact Option.noConfusion h
    next tf s1 heq1 =>
      split at h
      next heq2 => exact Option.noConfusion h
      next vf s2 heq2 =>
        split at h
        next heq3 => exact Option.noConfusion h
        next trf s3 heq3 =>
          obtain rfl := Option.some.inj h
          exact ⟨rfl, rfl, rfl, s1, s2, s3, heq1, heq2, heq3⟩

/-- C1: every sampled negative edge of the split — train, val or test —
is absent from the original positive edge set (in both orientations, and
absent from the upper-triangle edge enumeration), and no pair occurs in
two different negative sets. -/
theorem mask_negatives_no_leakage (n : ℕ) (adj : ℕ → ℕ → Bool)
    (test_frac val_frac : ℚ) (seed fuel : ℕ) (tn vn ten : List (ℕ × ℕ))
    (hsym : ∀ i j, adj i j = adj j i)
    (h : maskNegatives n adj test_frac val_frac seed fuel =
      some (tn, vn, ten)) :
    (∀ e ∈ tn ++ vn ++ ten,
      adj e.1 e.2 = false ∧ adj e.2 e.1 = false ∧
        e ∉ upperEdges n adj) ∧
    (∀ e ∈ tn, e ∉ vn) ∧ (∀ e ∈ tn, e ∉ ten) ∧ (∀ e ∈ vn, e ∉ ten) := by
  unfold maskNegatives mask_test_edges at h
  rw [Option.map_eq_some'] at h
  obtain ⟨sp, hsp, hproj⟩ := h
  obtain ⟨htn, hvn, hten⟩ :
      sp.train_edges_false = tn ∧ sp.val_edges_false = vn ∧
        sp.test_edges_false = ten := by
    simpa [Prod.mk.injEq] using hproj
  obtain ⟨-, -, -, s1, s2, s3, heq1, heq2, heq3⟩ :=
    mask_core_spec n adj _ _ seed fuel sp hsp
  rw [hten] at heq1 heq2 heq3
  rw [hvn] at heq2 heq3
  rw [htn] at heq3
  have gten := negList_good n adj hsym ten []
    (sampleNegs_sound n adj fuel _ [] [] _ ten _ heq1)
  have gvn := negList_good n adj hsym vn ten
    (sampleNegs_sound n adj fuel _ ten [] _ vn _ heq2)
  have gtn := negList_good n adj hsym tn (ten ++ vn)
    (sampleNegs_sound n adj fuel _ (ten ++ vn) [] _ tn _ heq3)
  refine ⟨?_, ?_, ?_, ?_⟩
  · intro e he
    rcases List.mem_append.mp he with he12 | he3
    · rcases List.mem_append.mp he12 with he1 | he2
      · exact (gtn e he1).1
      · exact (gvn e he2).1
    · exact (gten e he3).1
  · intro e he
    exact fun hv => (gtn e he).2 (List.mem_append.mpr (Or.inr hv))
  · intro e he
    exact fun ht => (gtn e he).2 (List.mem_append.mpr (Or.inl ht))
  · intro e he
    exact (gvn e he).2

/-- Moving the i-th element to the front is a permutation. -/
theorem get_cons_eraseIdx_perm {α : Type} :
    ∀ (l : List α) (i : ℕ) (h : i < l.length),
      (l.get ⟨i, h⟩ :: l.eraseIdx i).Perm l := by
  intro l
  induction l with
  | nil => intro i h; simp at h
  | cons a l ih =>
    intro i h
    cases i with
    | zero => exact List.Perm.refl _
    | succ i =>
      have hi : i < l.length := by simpa using h
      show (l.get ⟨i, hi⟩ :: a :: l.eraseIdx i).Perm (a :: l)
      exact (List.Perm.swap a (l.get ⟨i, hi⟩) (l.eraseIdx i)).trans
        ((ih i hi).cons a)

/-- The Fisher-Yates shuffle with enough fuel permutes its input. -/
theorem fisherYates_perm {α : Type} :
    ∀ (fuel : ℕ) (l : List α) (s : ℕ), l.length ≤ fuel →
      (fisherYates fuel l s).Perm l := by
  intro fuel
  induction fuel with
  | zero =>
    intro l s h
    have hl : l = [] := List.eq_nil_of_length_eq_zero (Nat.le_zero.mp h)
    subst hl
    exact List.Perm.refl _
  | succ fuel ih =>
    intro l s h
    cases l with
    | nil => exact List.Perm.refl _
    | cons a rest =>
      simp only [fisherYates]
      have hlen : 0 < (a :: rest).length := by simp
      have hi : s % (a :: rest).length < (a :: rest).length :=
        Nat.mod_lt _ hlen
      rw [List.getD_eq_getElem _ _ hi]
      refine List.Perm.trans (List.Perm.cons _ (ih _ _ ?_))
        (get_cons_eraseIdx_perm _ _ hi)
      have hle := List.length_eraseIdx (a :: rest)
        (s % (a :: rest).length)
      rw [if_pos hi] at hle
      rw [hle]
      simp only [List.length_cons] at h ⊢
      omega

/-- The shuffled edge list is a permutation of the edge list. -/
theorem shuffleList_perm {α : Type} (l : List α) (s : ℕ) :
    (shuffleList l s).Perm l :=
  fisherYates_perm l.length l s (le_refl _)

/-- The upper-triangle edge enumeration has no duplicates. -/
theorem upperEdges_nodup (n : ℕ) (adj : ℕ → ℕ → Bool) :
    (upperEdges n adj).Nodup := by
  unfold upperEdges
  rw [List.nodup_flatMap]
  constructor
  · intro i _
    exact ((List.nodup_range n).filter _).map
      (fun a b hab => by simpa using congrArg Prod.snd hab)
  · apply List.Pairwise.imp ?_ (List.pairwise_lt_range n)
    intro a b hab
    intro x hxa hxb
    simp only [List.mem_map, List.mem_filter] at hxa hxb
    obtain ⟨ja, _, rfl⟩ := hxa
    obtain ⟨jb, _, hjb⟩ := hxb
    exact absurd (congrArg Prod.fst hjb).symm (Nat.ne_of_lt hab)

/-- C2: for every adjacency and every valid fraction pair, a successful
split's positive sets — test, val, train — form a permutation of the
upper-triangle edge enumeration: each is duplicate-free, they are pairwise
disjoint, and their lengths sum to the original edge count. -/
theorem mask_positives_partition (n : ℕ) (adj : ℕ → ℕ → Bool)
    (test_frac val_frac : ℚ) (seed fuel : ℕ) (tr va te : List (ℕ × ℕ))
    (h0 : 0 ≤ test_frac) (h1 : 0 ≤ val_frac)
    (h2 : test_frac + val_frac < 1)
    (h : maskPositives n adj test_frac val_frac seed fuel =
      some (tr, va, te)) :
    (te ++ va ++ tr).Perm (upperEdges n adj) ∧
    tr.Nodup ∧ va.Nodup ∧ te.Nodup ∧
    te.Disjoint va ∧ te.Disjoint tr ∧ va.Disjoint tr ∧
    tr.length + va.length + te.length = (upperEdges n adj).length := by
  unfold maskPositives mask_test_edges at h
  rw [Option.map_eq_some'] at h
  obtain ⟨sp, hsp, hproj⟩ := h
  obtain ⟨htr, hva, hte⟩ :
      sp.train_edges = tr ∧ sp.val_edges = va ∧ sp.test_edges = te := by
    simpa [Prod.mk.injEq] using hproj
  obtain ⟨hteq, hveq, htreq, -⟩ := mask_core_spec n adj _ _ seed fuel sp hsp
  rw [hte] at hteq
  rw [hva] at hveq
  rw [htr] at htreq
  have hconcat : te ++ va ++ tr = shuffleList (upperEdges n adj) seed := by
    rw [hteq, hveq, htreq, List.append_assoc, List.take_append_drop,
      List.take_append_drop]
  have hperm : (te ++ va ++ tr).Perm (upperEdges n adj) := by
    rw [hconcat]
    exact shuffleList_perm _ _
  have hnd : (te ++ va ++ tr).Nodup :=
    hperm.symm.nodup (upperEdges_nodup n adj)
  rw [List.append_assoc] at hnd
  obtain ⟨hndte, hndvatr, hdisj⟩ := List.nodup_append.mp hnd
  obtain ⟨hndva, hndtr, hdisj2⟩ := List.nodup_append.mp hndvatr
  obtain ⟨hdte_va, hdte_tr⟩ := List.disjoint_append_right.mp hdisj
  refine ⟨hperm, hndtr, hndva, hndte, hdte_va, hdte_tr, hdisj2, ?_⟩
  have hlen := hperm.length_eq
  simp only [List.length_append] at hlen
  omega

/-- A concrete 5-node ring graph for exercising the split engine. -/
def ringList : List (ℕ × ℕ) := [(0, 1), (1, 2), (2, 3), (3, 4), (0, 4)]

/-- The symmetric adjacency of the 5-node ring. -/
def adjW (i j : ℕ) : Bool :=
  ringList.contains (i, j) || ringList.contains (j, i)

/-- The ring adjacency is symmetric. -/
theorem adjW_symm : ∀ i j, adjW i j = adjW j i :=
  fun _ _ => Bool.or_comm _ _

/-- The split sizes on the 5-edge ring with fractions 2/5 and 1/5. -/
theorem splitCounts_ring :
    splitCounts (2 / 5) (1 / 5) (upperEdges 5 adjW).length = (2, 1) := by
  rw [show (upperEdges 5 adjW).length = 5 from rfl]
  unfold splitCounts
  have e1 : ((2 : ℚ) / 5 * ((5 : ℕ) : ℚ)) = 2 := by norm_num
  have e2 : ((1 : ℚ) / 5 * ((5 : ℕ) : ℚ)) = 1 := by norm_num
  rw [e1, e2]
  norm_num
  decide

/-- On the ring instance, the fraction front-end reduces to the counted
core. -/
theorem mask_ring_eval :
    mask_test_edges 5 adjW (2 / 5) (1 / 5) 0 1000 =
      mask_test_edges_core 5 adjW 2 1 0 1000 := by
  unfold mask_test_edges
  rw [splitCounts_ring]

/-- Witness for the negative-set soundness theorem on the 5-node ring. -/
theorem mask_negatives_no_leakage_witness :
    (∀ e ∈ ([(0, 2), (1, 3)] ++ [(0, 3)] ++ [(2, 4), (1, 4)] :
        List (ℕ × ℕ)),
      adjW e.1 e.2 = false ∧ adjW e.2 e.1 = false ∧
        e ∉ upperEdges 5 adjW) ∧
    (∀ e ∈ ([(0, 2), (1, 3)] : List (ℕ × ℕ)),
      e ∉ ([(0, 3)] : List (ℕ × ℕ))) ∧
    (∀ e ∈ ([(0, 2), (1, 3)] : List (ℕ × ℕ)),
      e ∉ ([(2, 4), (1, 4)] : List (ℕ × ℕ))) ∧
    (∀ e ∈ ([(0, 3)] : List (ℕ × ℕ)),
      e ∉ ([(2, 4), (1, 4)] : List (ℕ × ℕ))) :=
  mask_negatives_no_leakage 5 adjW (2 / 5) (1 / 5) 0 1000
    [(0, 2), (1, 3)] [(0, 3)] [(2, 4), (1, 4)] adjW_symm (by
      unfold maskNegatives
      rw [mask_ring_eval]
      decide)

/-- Witness for the positive-partition theorem on the 5-node ring. -/
theorem mask_positives_partition_witness :
    (([(0, 1), (2, 3)] ++ [(3, 4)] ++ [(0, 4), (1, 2)] :
        List (ℕ × ℕ)).Perm (upperEdges 5 adjW)) ∧
    ([(0, 4), (1, 2)] : List (ℕ × ℕ)).Nodup ∧
    ([(3, 4)] : List (ℕ × ℕ)).Nodup ∧
    ([(0, 1), (2, 3)] : List (ℕ × ℕ)).Nodup ∧
    ([(0, 1), (2, 3)] : List (ℕ × ℕ)).Disjoint [(3, 4)] ∧
    ([(0, 1), (2, 3)] : List (ℕ × ℕ)).Disjoint [(0, 4), (1, 2)] ∧
    ([(3, 4)] : List (ℕ × ℕ)).Disjoint [(0, 4), (1, 2)] ∧
    ([(0, 4), (1, 2)] : List (ℕ × ℕ)).length +
        ([(3, 4)] : List (ℕ × ℕ)).length +
        ([(0, 1), (2, 3)] : List (ℕ × ℕ)).length =
      (upperEdges 5 adjW).length :=
  mask_positives_partition 5 adjW (2 / 5) (1 / 5) 0 1000
    [(0, 4), (1, 2)] [(3, 4)] [(0, 1), (2, 3)]
    (by norm_num) (by norm_num) (by norm_num) (by
      unfold maskPositives
      rw [mask_ring_eval]
      decide)
